import Mathlib

/-!
Verification of a Monte Carlo bit-error-rate simulator.

The development shallowly embeds the C++ sources:
  * `coder.cpp`    — rate-1/2, K=7 zero-terminated convolutional encoder and
    hard-decision Viterbi decoder (bit vectors as `List ℕ`, metrics as `ℕ`);
  * `modem.hpp`    — 2-ASK and 4-ASK (Gray / Natural) modems over `ℚ`;
  * `channel.cpp`  — AWGN and real Rayleigh channels; the random draws of the
    C++ RNG become explicit parameters;
  * `simulation.cpp` — Wilson interval and stop predicates over `ℝ`, the
    per-symbol equalization loop, and a schedule-indexed transition system for
    the multi-threaded engine (one step = one worker action);
  * `main.cpp` (driver) — the sweep early-stop condition.
-/

/-! ## Convolutional coder (`coder.cpp`) -/

namespace ConvK7R12

/-- `p4` lookup table from `parity32`. -/
def p4 : List ℕ := [0, 1, 1, 0, 1, 0, 0, 1, 1, 0, 0, 1, 0, 1, 1, 0]

/-- `parity32` from `coder.cpp`: xor-fold then 4-bit table lookup. -/
def parity32 (x : ℕ) : ℕ :=
  let x1 := x ^^^ (x >>> 16)
  let x2 := x1 ^^^ (x1 >>> 8)
  let x3 := x2 ^^^ (x2 >>> 4)
  p4.getD (x3 &&& 0xF) 0

/-- Generator `g0 = 133₈ = 0b1011011`. -/
def G0 : ℕ := 0b1011011

/-- Generator `g1 = 171₈ = 0b1111001`. -/
def G1 : ℕ := 0b1111001

/-- Encoder memory `M = 6`. -/
def M : ℕ := 6

/-- One encoder shift-register update: `sr = ((sr << 1) | (bit & 1)) & ((1 << (M+1)) - 1)`. -/
def convPush (sr b : ℕ) : ℕ := ((sr <<< 1) ||| (b &&& 1)) &&& ((1 <<< (M + 1)) - 1)

/-- The two output bits emitted from shift register `sr`:
`v0 = parity(sr & G0)`, `v1 = parity(sr & G1)`. -/
def convOut (sr : ℕ) : ℕ × ℕ := (parity32 (sr &&& G0), parity32 (sr &&& G1))

/-- The encoder loop body of `ConvK7R12::encode`, starting from register `sr`. -/
def encodeFrom (sr : ℕ) : List ℕ → List ℕ
  | [] => []
  | b :: rest =>
    let sr' := convPush sr b
    (convOut sr').1 :: (convOut sr').2 :: encodeFrom sr' rest

/-- `ConvK7R12::encode`: push the input bits, then `M` zero-termination bits. -/
def encode (u : List ℕ) : List ℕ := encodeFrom 0 (u ++ List.replicate M 0)

theorem encodeFrom_length (v : List ℕ) : ∀ sr, (encodeFrom sr v).length = 2 * v.length := by
  induction v with
  | nil => intro sr; simp [encodeFrom]
  | cons b rest ih =>
    intro sr
    simp [encodeFrom, ih]
    ring

theorem encode_length (u : List ℕ) : (encode u).length = 2 * (u.length + M) := by
  simp [encode, encodeFrom_length]

end ConvK7R12

/-- Claim C8: for every input bit vector `u` of length `n`, `ConvK7R12::encode`
produces exactly `2 * (n + 6)` output bits (two coded bits per input bit plus
two per each of the `M = 6` zero-termination bits). -/
theorem C8_encode_length_law (u : List ℕ) :
    (ConvK7R12.encode u).length = 2 * (u.length + 6) :=
  ConvK7R12.encode_length u

/-! ## Modems (`modem.hpp`), over `ℚ`

`modulate` receives the engine's 8-slot zero-padded scratch array; the array is
modelled as a `List ℕ` read through `List.getD _ 0`, so positions beyond the
list are the zero padding.  `demodulate` returns the `bits_per_symbol` entries
it writes into `bits_out`. -/

namespace Ask2Modem

def modulate (bits : List ℕ) : ℚ := if bits.getD 0 0 ≠ 0 then -1 else 1

def demodulate (r : ℚ) : List ℕ := if r < 0 then [1] else [0]

def bits_per_symbol : ℕ := 1

def symbol_energy : ℚ := 1

end Ask2Modem

namespace Ask4Modem

inductive Mapping where
  | Gray
  | Natural
deriving DecidableEq

def modulate (mp : Mapping) (bits : List ℕ) : ℚ :=
  let b0 := bits.getD 0 0
  let b1 := bits.getD 1 0
  let val := (b0 <<< 1) ||| b1
  match mp with
  | .Gray =>
    match val with
    | 0 => -3
    | 1 => -1
    | 3 => 1
    | 2 => 3
    | _ => 0
  | .Natural =>
    match val with
    | 0 => -3
    | 1 => -1
    | 2 => 1
    | 3 => 3
    | _ => 0

def demodulate (mp : Mapping) (r : ℚ) : List ℕ :=
  let sym : ℕ := if r < -2 then 0 else if r < 0 then 1 else if r < 2 then 2 else 3
  match mp with
  | .Gray =>
    match sym with
    | 0 => [0, 0]
    | 1 => [0, 1]
    | 2 => [1, 1]
    | _ => [1, 0]
  | .Natural =>
    match sym with
    | 0 => [0, 0]
    | 1 => [0, 1]
    | 2 => [1, 0]
    | _ => [1, 1]

def bits_per_symbol : ℕ := 2

def symbol_energy : ℚ := 5

end Ask4Modem

/-- Claim C6: for each 4-ASK mapping (Gray: `00↦-3, 01↦-1, 11↦+1, 10↦+3`;
Natural: `00↦-3, 01↦-1, 10↦+1, 11↦+3`) the 2-bits-to-symbol table is a
bijection between `{0,1}²` and `{-3,-1,+1,+3}`, and hard demodulation of the
exact modulated symbol recovers the exact bits. -/
theorem C6_ask4_bijection_roundtrip : ∀ mp : Ask4Modem.Mapping,
    (Ask4Modem.modulate .Gray [0, 0] = -3 ∧ Ask4Modem.modulate .Gray [0, 1] = -1 ∧
     Ask4Modem.modulate .Gray [1, 1] = 1 ∧ Ask4Modem.modulate .Gray [1, 0] = 3 ∧
     Ask4Modem.modulate .Natural [0, 0] = -3 ∧ Ask4Modem.modulate .Natural [0, 1] = -1 ∧
     Ask4Modem.modulate .Natural [1, 0] = 1 ∧ Ask4Modem.modulate .Natural [1, 1] = 3) ∧
    (∀ b0 < 2, ∀ b1 < 2, ∀ b0' < 2, ∀ b1' < 2,
      Ask4Modem.modulate mp [b0, b1] = Ask4Modem.modulate mp [b0', b1'] →
        b0 = b0' ∧ b1 = b1') ∧
    (∀ b0 < 2, ∀ b1 < 2, Ask4Modem.modulate mp [b0, b1] ∈ ([-3, -1, 1, 3] : List ℚ)) ∧
    (∀ s ∈ ([-3, -1, 1, 3] : List ℚ), ∃ b0 < 2, ∃ b1 < 2,
      Ask4Modem.modulate mp [b0, b1] = s) ∧
    (∀ b0 < 2, ∀ b1 < 2,
      Ask4Modem.demodulate mp (Ask4Modem.modulate mp [b0, b1]) = [b0, b1]) := by
  intro mp
  refine ⟨by decide, ?_, ?_, ?_, ?_⟩
  · intro b0 hb0 b1 hb1 b0' hb0' b1' hb1'
    cases mp <;>
      (interval_cases b0 <;> interval_cases b1 <;> interval_cases b0' <;>
        interval_cases b1' <;> decide)
  · cases mp <;> decide
  · cases mp <;> decide
  · cases mp <;> decide

/-- Concrete instance of C6: the Gray round trip at bits `(1,0)` (symbol `+3`)
and the Natural round trip at bits `(1,1)` (symbol `+3`). -/
theorem C6_witness :
    Ask4Modem.demodulate .Gray (Ask4Modem.modulate .Gray [1, 0]) = [1, 0] ∧
    Ask4Modem.demodulate .Natural (Ask4Modem.modulate .Natural [1, 1]) = [1, 1] :=
  ⟨(C6_ask4_bijection_roundtrip .Gray).2.2.2.2 1 (by decide) 0 (by decide),
   (C6_ask4_bijection_roundtrip .Natural).2.2.2.2 1 (by decide) 1 (by decide)⟩

/-! ## Channels (`channel.cpp`) and coherent equalization (`simulation.cpp`)

The C++ channels draw from the worker RNG; the draws are explicit parameters:
`n` is the `N(0, σ²)` draw of the AWGN channel (σ already folded in), `g` is
the `N(0,1)` draw of the Rayleigh channel. -/

structure ChannelOutput where
  y : ℚ
  gain : ℚ

namespace AwgnChannel

/-- `AwgnChannel::transmit`: `y = s + n`, `gain = 1`. -/
def transmit (s n : ℚ) : ChannelOutput := ⟨s + n, 1⟩

end AwgnChannel

namespace RayleighChannel

/-- `RayleighChannel::transmit`: `h = |g|`, `y = h·s`, `gain = h`; no noise is
added inside `transmit`. -/
def transmit (s g : ℚ) : ChannelOutput := ⟨|g| * s, |g|⟩

end RayleighChannel

/-- The worker equalization step of `simulate_framewise`
(`simulation.cpp:167-169`): returns `(r_eq, sigma2_eq)`. -/
def equalize (ch : ChannelOutput) (sigma : ℚ) : ℚ × ℚ :=
  let g := if 0 < ch.gain then ch.gain else 1
  let r_eq := if 0 < ch.gain then ch.y / ch.gain else ch.y
  (r_eq, (sigma * sigma) / (g * g))

theorem equalize_rayleigh_exact (s g sigma : ℚ) (hg : 0 < |g|) :
    (equalize (RayleighChannel.transmit s g) sigma).1 = s ∧
    (equalize (RayleighChannel.transmit s g) sigma).2 = (sigma * sigma) / (|g| * |g|) := by
  have hne : |g| ≠ 0 := ne_of_gt hg
  constructor
  · show (if 0 < |g| then |g| * s / |g| else |g| * s) = s
    rw [if_pos hg, mul_comm, mul_div_assoc, div_self hne, mul_one]
  · show (sigma * sigma) / ((if 0 < |g| then |g| else 1) * (if 0 < |g| then |g| else 1)) =
      (sigma * sigma) / (|g| * |g|)
    rw [if_pos hg]

/-- Claim C1 (code evidence at the failing input): for the transmitted 2-ASK
symbol `s = +1` (bit 0) and Rayleigh fading draw `g = 1`, for EVERY noise
scale `σ`: `transmit` returns `(h·s, h) = (1, 1)` with no noise added, the
engine's equalization yields `r_eq = s` exactly — not a noisy observation of
`s` — while reporting `sigma2_eq = σ²/gain²`, and hard demodulation returns
the transmitted bit with certainty.  No additive noise of variance `σ²/gain²`
(or any noise at all) enters the Rayleigh chain: `transmit` adds none and the
σ-scaled hard-decision step is `σ`-independent. -/
theorem C1_rayleigh_chain_is_noiseless (sigma : ℚ) :
    RayleighChannel.transmit 1 1 = ⟨1, 1⟩ ∧
    (equalize (RayleighChannel.transmit 1 1) sigma).1 = 1 ∧
    (equalize (RayleighChannel.transmit 1 1) sigma).2 = (sigma * sigma) / (1 * 1) ∧
    Ask2Modem.demodulate (equalize (RayleighChannel.transmit 1 1) sigma).1 = [0] := by
  have h1 : RayleighChannel.transmit 1 1 = ⟨1, 1⟩ := by
    simp [RayleighChannel.transmit]
  have h2 := equalize_rayleigh_exact 1 1 sigma (by norm_num)
  rw [abs_one] at h2
  refine ⟨h1, h2.1, by simpa using h2.2, ?_⟩
  rw [h2.1]
  simp [Ask2Modem.demodulate]

/-! ## Hard-decision Viterbi decoder (`ConvK7R12::decode`)

The path-metric, predecessor and decision arrays become functions `ℕ → _`;
one `VitStep` holds the three arrays for one trellis section.  `INF = 1e9`
as in the source. -/

namespace ConvK7R12

def NSTATE : ℕ := 64

def INF : ℕ := 1000000000

/-- Next state of the transition table: `sr & ((1 << M) - 1)` for
`sr = ((s << 1) | b) & ((1 << (M+1)) - 1)`. -/
def transNext (s b : ℕ) : ℕ :=
  (((s <<< 1) ||| b) &&& ((1 <<< (M + 1)) - 1)) &&& ((1 <<< M) - 1)

/-- Reference output `(v0 << 1) | v1` of the transition table, computed from
`sr = ((s << 1) | b) & ((1 << (M+1)) - 1)`. -/
def transOut (s b : ℕ) : ℕ :=
  let sr := ((s <<< 1) ||| b) &&& ((1 <<< (M + 1)) - 1)
  ((parity32 (sr &&& G0)) <<< 1) ||| parity32 (sr &&& G1)

/-- Hamming distance between two 2-bit symbols, as computed in the source:
`(((ref >> 1) & 1) ^ ((r >> 1) & 1)) + ((ref & 1) ^ (r & 1))`. -/
def hamming2 (ref r : ℕ) : ℕ :=
  (((ref >>> 1) &&& 1) ^^^ ((r >>> 1) &&& 1)) + ((ref &&& 1) ^^^ (r &&& 1))

/-- One trellis section: current path metrics, predecessors, decided bits. -/
structure VitStep where
  pm : ℕ → ℕ
  pred : ℕ → ℤ
  dec : ℕ → ℕ

/-- The inner relaxation for one `(origin state, input bit)` pair: if the
candidate metric `m = pm + dist` beats `pm_curr[ns]`, record it together with
predecessor and decided bit. -/
def relaxB (r pm : ℕ) (st : VitStep) (s b : ℕ) : VitStep :=
  let ns := transNext s b
  let ref := transOut s b
  let dist := hamming2 ref r
  let m := pm + dist
  if m < st.pm ns then
    ⟨Function.update st.pm ns m, Function.update st.pred ns (s : ℤ),
      Function.update st.dec ns b⟩
  else st

/-- The loop body over one origin state `s`: skip if `pm_prev[s] ≥ INF`,
otherwise relax with input bit 0 then input bit 1. -/
def relaxState (r : ℕ) (pmPrev : ℕ → ℕ) (st : VitStep) (s : ℕ) : VitStep :=
  let pm := pmPrev s
  if INF ≤ pm then st
  else relaxB r pm (relaxB r pm st s 0) s 1

/-- Initial trellis section for one symbol: all metrics `INF`, predecessors
`-1`, decisions 0. -/
def initStep : VitStep := ⟨fun _ => INF, fun _ => -1, fun _ => 0⟩

/-- Process one received symbol `r`: relax every origin state in order. -/
def stepSymbol (pmPrev : ℕ → ℕ) (r : ℕ) : VitStep :=
  (List.range NSTATE).foldl (relaxState r pmPrev) initStep

/-- The forward pass over the received symbols, collecting the per-symbol
sections; returns the final metric vector and the sections in time order. -/
def forwardPass (pmPrev : ℕ → ℕ) : List ℕ → (ℕ → ℕ) × List VitStep
  | [] => (pmPrev, [])
  | r :: rest =>
    let st := stepSymbol pmPrev r
    let (pmFin, tables) := forwardPass st.pm rest
    (pmFin, st :: tables)

/-- Pack the received hard bits into 2-bit symbols
`r_t = (c_hat[2t] << 1) | c_hat[2t+1]`; a trailing odd bit is dropped. -/
def toSyms : List ℕ → List ℕ
  | a :: b :: rest => ((a <<< 1) ||| b) :: toSyms rest
  | _ => []

/-- The traceback loop, processing the trellis sections from the last symbol
backwards (the argument is the reversed section list).  Returns the decided
bits in time order and the state reached at time 0.  An unreachable
predecessor (`-1`) falls back to state 0, as in the source. -/
def tracebackAux : List VitStep → ℕ → List ℕ × ℕ
  | [], state => ([], state)
  | tb :: rest, state =>
    let b := tb.dec state
    let p := tb.pred state
    let state' := if 0 ≤ p then p.toNat else 0
    let (bits, s0) := tracebackAux rest state'
    (bits ++ [b], s0)

/-- The initial path-metric vector: 0 at state 0, `INF` elsewhere. -/
def pmInit : ℕ → ℕ := fun s => if s = 0 then 0 else INF

/-- `ConvK7R12::decode`: hard-decision Viterbi with traceback anchored at
state 0, emitting the first `n_sym - M` decided bits. -/
def decode (c_hat : List ℕ) : List ℕ :=
  let n_sym := c_hat.length / 2
  if n_sym = 0 then []
  else
    let rs := toSyms c_hat
    let tables := (forwardPass pmInit rs).2
    let K := if M < n_sym then n_sym - M else 0
    (tracebackAux tables.reverse 0).1.take K

end ConvK7R12

/-! ## Viterbi round-trip correctness -/

namespace ConvK7R12

/-- The trellis state reached from `s` after shifting in the bits of `l`. -/
def pathFrom (s : ℕ) : List ℕ → ℕ
  | [] => s
  | b :: rest => pathFrom (transNext s b) rest

/-- The reference outputs along the trellis path of `l` from state `s`. -/
def outSeq (s : ℕ) : List ℕ → List ℕ
  | [] => []
  | b :: rest => transOut s b :: outSeq (transNext s b) rest

theorem transNext_lt (s b : ℕ) : transNext s b < 64 :=
  lt_of_le_of_lt Nat.and_le_right (by decide)

theorem convPush_lt (sr b : ℕ) : convPush sr b < 128 :=
  lt_of_le_of_lt Nat.and_le_right (by decide)

theorem encoder_decoder_step : ∀ sr < 128, ∀ b < 2,
    convPush sr b &&& 63 = transNext (sr &&& 63) b ∧
    (((convOut (convPush sr b)).1 <<< 1) ||| (convOut (convPush sr b)).2) =
      transOut (sr &&& 63) b := by decide

theorem transOut_ne (s : ℕ) (hs : s < 64) : transOut s 0 ≠ transOut s 1 := by
  revert s hs
  decide

theorem transNext_ne (s : ℕ) (hs : s < 64) : transNext s 0 ≠ transNext s 1 := by
  revert s hs
  decide

theorem transOut_lt4 : ∀ s < 64, ∀ b < 2, transOut s b < 4 := by decide

theorem hamming2_self : ∀ r < 4, hamming2 r r = 0 := by decide

theorem hamming2_pos : ∀ x < 4, ∀ r < 4, x ≠ r → 1 ≤ hamming2 x r := by decide

theorem pathFrom_zeros : ∀ s < 64, pathFrom s (List.replicate 6 0) = 0 := by decide

theorem pathFrom_append (l₁ l₂ : List ℕ) : ∀ s,
    pathFrom s (l₁ ++ l₂) = pathFrom (pathFrom s l₁) l₂ := by
  induction l₁ with
  | nil => intro s; rfl
  | cons b rest ih => intro s; exact ih (transNext s b)

theorem pathFrom_lt (l : List ℕ) : ∀ s < 64, pathFrom s l < 64 := by
  induction l with
  | nil => intro s hs; exact hs
  | cons b rest ih => intro s _; exact ih _ (transNext_lt s b)

/-- The coded stream, viewed as 2-bit symbols, is the trellis output sequence:
the encoder's 7-bit shift register tracks the decoder's 6-bit state through
`sr &&& 63`. -/
theorem toSyms_encodeFrom : ∀ (v : List ℕ) (sr : ℕ), sr < 128 → (∀ b ∈ v, b < 2) →
    toSyms (encodeFrom sr v) = outSeq (sr &&& 63) v := by
  intro v
  induction v with
  | nil => intro sr _ _; rfl
  | cons b rest ih =>
    intro sr hsr hv
    have hb : b < 2 := hv b (List.mem_cons_self b rest)
    have hrest : ∀ x ∈ rest, x < 2 := fun x hx => hv x (List.mem_cons_of_mem b hx)
    have hstep := encoder_decoder_step sr hsr b hb
    show ((((convOut (convPush sr b)).1) <<< 1) ||| (convOut (convPush sr b)).2) ::
        toSyms (encodeFrom (convPush sr b) rest) = outSeq (sr &&& 63) (b :: rest)
    rw [hstep.2, ih (convPush sr b) (convPush_lt sr b) hrest, hstep.1]
    rfl

/-! ### Relaxation lemmas -/

theorem relaxB_pm_other (r pm : ℕ) (st : VitStep) (s b ns : ℕ)
    (h : ns ≠ transNext s b) :
    (relaxB r pm st s b).pm ns = st.pm ns ∧
    (relaxB r pm st s b).pred ns = st.pred ns ∧
    (relaxB r pm st s b).dec ns = st.dec ns := by
  simp only [relaxB]
  split
  · exact ⟨Function.update_noteq h _ _, Function.update_noteq h _ _,
      Function.update_noteq h _ _⟩
  · exact ⟨rfl, rfl, rfl⟩

theorem relaxB_preserve_one (r pm : ℕ) (st : VitStep) (s b : ℕ)
    (hm : 1 ≤ pm + hamming2 (transOut s b) r) (ns : ℕ) (h : 1 ≤ st.pm ns) :
    1 ≤ (relaxB r pm st s b).pm ns := by
  simp only [relaxB]
  split
  · show 1 ≤ Function.update st.pm (transNext s b) _ ns
    rw [Function.update_apply]
    split
    · exact hm
    · exact h
  · exact h

theorem relaxB_keep_zero (r pm : ℕ) (st : VitStep) (s b ns0 : ℕ)
    (hz : st.pm ns0 = 0) :
    (relaxB r pm st s b).pm ns0 = 0 ∧
    (relaxB r pm st s b).pred ns0 = st.pred ns0 ∧
    (relaxB r pm st s b).dec ns0 = st.dec ns0 := by
  by_cases hns : ns0 = transNext s b
  · subst hns
    simp only [relaxB]
    split
    · next hlt => omega
    · exact ⟨hz, rfl, rfl⟩
  · exact ⟨(relaxB_pm_other r pm st s b ns0 hns).1 ▸ hz,
      (relaxB_pm_other r pm st s b ns0 hns).2.1,
      (relaxB_pm_other r pm st s b ns0 hns).2.2⟩

theorem relaxB_write_zero (r : ℕ) (st : VitStep) (s b : ℕ)
    (hdist : hamming2 (transOut s b) r = 0) (hlt : 0 < st.pm (transNext s b)) :
    (relaxB r 0 st s b).pm (transNext s b) = 0 ∧
    (relaxB r 0 st s b).pred (transNext s b) = (s : ℤ) ∧
    (relaxB r 0 st s b).dec (transNext s b) = b := by
  simp only [relaxB, hdist]
  rw [if_pos (by simpa using hlt)]
  exact ⟨by simp, by simp, by simp⟩

end ConvK7R12

namespace ConvK7R12

theorem relaxState_of_pos (r : ℕ) (pmPrev : ℕ → ℕ) (st : VitStep) (s : ℕ)
    (hs : 1 ≤ pmPrev s) :
    (∀ ns, 1 ≤ st.pm ns → 1 ≤ (relaxState r pmPrev st s).pm ns) ∧
    (∀ ns0, st.pm ns0 = 0 →
      (relaxState r pmPrev st s).pm ns0 = 0 ∧
      (relaxState r pmPrev st s).pred ns0 = st.pred ns0 ∧
      (relaxState r pmPrev st s).dec ns0 = st.dec ns0) := by
  simp only [relaxState]
  split
  · exact ⟨fun ns h => h, fun ns0 h => ⟨h, rfl, rfl⟩⟩
  · have hm0 : 1 ≤ pmPrev s + hamming2 (transOut s 0) r :=
      le_trans hs (Nat.le_add_right _ _)
    have hm1 : 1 ≤ pmPrev s + hamming2 (transOut s 1) r :=
      le_trans hs (Nat.le_add_right _ _)
    constructor
    · intro ns h
      exact relaxB_preserve_one r (pmPrev s) _ s 1 hm1 ns
        (relaxB_preserve_one r (pmPrev s) st s 0 hm0 ns h)
    · intro ns0 h
      have k0 := relaxB_keep_zero r (pmPrev s) st s 0 ns0 h
      have k1 := relaxB_keep_zero r (pmPrev s) (relaxB r (pmPrev s) st s 0) s 1 ns0 k0.1
      exact ⟨k1.1, k1.2.1.trans k0.2.1, k1.2.2.trans k0.2.2⟩

theorem relaxState_at_star (sStar bStar : ℕ) (hs : sStar < 64) (hb : bStar < 2)
    (pmPrev : ℕ → ℕ) (st : VitStep) (h0 : pmPrev sStar = 0)
    (hoff : ∀ ns, ns ≠ transNext sStar bStar → 1 ≤ st.pm ns)
    (hstar : 1 ≤ st.pm (transNext sStar bStar) ∨
      (st.pm (transNext sStar bStar) = 0 ∧
       st.pred (transNext sStar bStar) = (sStar : ℤ) ∧
       st.dec (transNext sStar bStar) = bStar)) :
    (∀ ns, ns ≠ transNext sStar bStar →
      1 ≤ (relaxState (transOut sStar bStar) pmPrev st sStar).pm ns) ∧
    (relaxState (transOut sStar bStar) pmPrev st sStar).pm (transNext sStar bStar) = 0 ∧
    (relaxState (transOut sStar bStar) pmPrev st sStar).pred (transNext sStar bStar)
      = (sStar : ℤ) ∧
    (relaxState (transOut sStar bStar) pmPrev st sStar).dec (transNext sStar bStar)
      = bStar := by
  have hout0 : transOut sStar 0 < 4 := transOut_lt4 sStar hs 0 (by decide)
  have hout1 : transOut sStar 1 < 4 := transOut_lt4 sStar hs 1 (by decide)
  simp only [relaxState, h0]
  rw [if_neg (by decide)]
  interval_cases bStar
  · -- input bit 0 on the true path; b = 0 writes the zero metric, b = 1 adds ≥ 1
    have hd0 : hamming2 (transOut sStar 0) (transOut sStar 0) = 0 :=
      hamming2_self _ hout0
    have hd1 : 1 ≤ hamming2 (transOut sStar 1) (transOut sStar 0) :=
      hamming2_pos _ hout1 _ hout0 (Ne.symm (transOut_ne sStar hs))
    have step1 :
        (relaxB (transOut sStar 0) 0 st sStar 0).pm (transNext sStar 0) = 0 ∧
        (relaxB (transOut sStar 0) 0 st sStar 0).pred (transNext sStar 0) = (sStar : ℤ) ∧
        (relaxB (transOut sStar 0) 0 st sStar 0).dec (transNext sStar 0) = 0 := by
      rcases hstar with h | h
      · exact relaxB_write_zero _ st sStar 0 hd0 h
      · have k := relaxB_keep_zero (transOut sStar 0) 0 st sStar 0 _ h.1
        exact ⟨k.1, k.2.1.trans h.2.1, k.2.2.trans h.2.2⟩
    have step1_off : ∀ ns, ns ≠ transNext sStar 0 →
        1 ≤ (relaxB (transOut sStar 0) 0 st sStar 0).pm ns := by
      intro ns hns
      rw [(relaxB_pm_other _ 0 st sStar 0 ns hns).1]
      exact hoff ns hns
    have k2 := relaxB_keep_zero (transOut sStar 0) 0
      (relaxB (transOut sStar 0) 0 st sStar 0) sStar 1 _ step1.1
    refine ⟨?_, k2.1, k2.2.1.trans step1.2.1, k2.2.2.trans step1.2.2⟩
    intro ns hns
    exact relaxB_preserve_one _ 0 _ sStar 1 (by omega) ns (step1_off ns hns)
  · -- input bit 1 on the true path; b = 0 adds ≥ 1, b = 1 writes the zero metric
    have hd0 : 1 ≤ hamming2 (transOut sStar 0) (transOut sStar 1) :=
      hamming2_pos _ hout0 _ hout1 (transOut_ne sStar hs)
    have hd1 : hamming2 (transOut sStar 1) (transOut sStar 1) = 0 :=
      hamming2_self _ hout1
    have hne01 : transNext sStar 1 ≠ transNext sStar 0 :=
      Ne.symm (transNext_ne sStar hs)
    have at_star1 := (relaxB_pm_other (transOut sStar 1) 0 st sStar 0 _ hne01)
    have step1_off : ∀ ns, ns ≠ transNext sStar 1 →
        1 ≤ (relaxB (transOut sStar 1) 0 st sStar 0).pm ns := by
      intro ns hns
      exact relaxB_preserve_one _ 0 st sStar 0 (by omega) ns (hoff ns hns)
    have hstar1 : 1 ≤ (relaxB (transOut sStar 1) 0 st sStar 0).pm (transNext sStar 1) ∨
        ((relaxB (transOut sStar 1) 0 st sStar 0).pm (transNext sStar 1) = 0 ∧
         (relaxB (transOut sStar 1) 0 st sStar 0).pred (transNext sStar 1) = (sStar : ℤ) ∧
         (relaxB (transOut sStar 1) 0 st sStar 0).dec (transNext sStar 1) = 1) := by
      rcases hstar with h | h
      · exact Or.inl (at_star1.1 ▸ h)
      · exact Or.inr ⟨at_star1.1.trans h.1, at_star1.2.1.trans h.2.1,
          at_star1.2.2.trans h.2.2⟩
    rcases hstar1 with h | h
    · have w := relaxB_write_zero (transOut sStar 1)
        (relaxB (transOut sStar 1) 0 st sStar 0) sStar 1 hd1 h
      refine ⟨?_, w.1, w.2.1, w.2.2⟩
      intro ns hns
      rw [(relaxB_pm_other _ 0 _ sStar 1 ns hns).1]
      exact step1_off ns hns
    · have k := relaxB_keep_zero (transOut sStar 1) 0
        (relaxB (transOut sStar 1) 0 st sStar 0) sStar 1 _ h.1
      refine ⟨?_, k.1, k.2.1.trans h.2.1, k.2.2.trans h.2.2⟩
      intro ns hns
      rw [(relaxB_pm_other _ 0 _ sStar 1 ns hns).1]
      exact step1_off ns hns

end ConvK7R12

namespace ConvK7R12

theorem foldl_relaxState_inv (sStar bStar : ℕ) (hs : sStar < 64) (hb : bStar < 2)
    (pmPrev : ℕ → ℕ) (h0 : pmPrev sStar = 0) (h1 : ∀ s, s ≠ sStar → 1 ≤ pmPrev s) :
    ∀ (l : List ℕ) (st : VitStep),
    (∀ ns, ns ≠ transNext sStar bStar → 1 ≤ st.pm ns) →
    ((sStar ∈ l ∧ 1 ≤ st.pm (transNext sStar bStar)) ∨
      (st.pm (transNext sStar bStar) = 0 ∧
       st.pred (transNext sStar bStar) = (sStar : ℤ) ∧
       st.dec (transNext sStar bStar) = bStar)) →
    (∀ ns, ns ≠ transNext sStar bStar →
      1 ≤ (l.foldl (relaxState (transOut sStar bStar) pmPrev) st).pm ns) ∧
    (l.foldl (relaxState (transOut sStar bStar) pmPrev) st).pm (transNext sStar bStar)
      = 0 ∧
    (l.foldl (relaxState (transOut sStar bStar) pmPrev) st).pred (transNext sStar bStar)
      = (sStar : ℤ) ∧
    (l.foldl (relaxState (transOut sStar bStar) pmPrev) st).dec (transNext sStar bStar)
      = bStar := by
  intro l
  induction l with
  | nil =>
    intro st hoff hdisj
    rcases hdisj with ⟨hmem, _⟩ | hdone
    · exact absurd hmem (List.not_mem_nil sStar)
    · exact ⟨hoff, hdone⟩
  | cons a l ih =>
    intro st hoff hdisj
    rw [List.foldl_cons]
    by_cases ha : a = sStar
    · subst ha
      have hstar : 1 ≤ st.pm (transNext a bStar) ∨
          (st.pm (transNext a bStar) = 0 ∧
           st.pred (transNext a bStar) = (a : ℤ) ∧
           st.dec (transNext a bStar) = bStar) := by
        rcases hdisj with ⟨_, hm⟩ | hdone
        · exact Or.inl hm
        · exact Or.inr hdone
      have hstep := relaxState_at_star a bStar hs hb pmPrev st h0 hoff hstar
      exact ih _ hstep.1 (Or.inr ⟨hstep.2.1, hstep.2.2.1, hstep.2.2.2⟩)
    · have hpos := relaxState_of_pos (transOut sStar bStar) pmPrev st a (h1 a ha)
      refine ih _ (fun ns hns => hpos.1 ns (hoff ns hns)) ?_
      rcases hdisj with ⟨hmem, hm⟩ | hdone
      · rcases List.mem_cons.mp hmem with h | h
        · exact absurd h.symm ha
        · exact Or.inl ⟨h, hpos.1 _ hm⟩
      · exact Or.inr ⟨(hpos.2 _ hdone.1).1, (hpos.2 _ hdone.1).2.1.trans hdone.2.1,
          (hpos.2 _ hdone.1).2.2.trans hdone.2.2⟩

/-- Processing the true-path symbol `transOut sStar bStar` from a metric
vector that is 0 exactly at `sStar` (and ≥ 1 elsewhere) yields a section
whose metric is 0 exactly at `transNext sStar bStar`, with the recorded
predecessor `sStar` and decided bit `bStar`. -/
theorem stepSymbol_true_path (sStar bStar : ℕ) (hs : sStar < 64) (hb : bStar < 2)
    (pmPrev : ℕ → ℕ) (h0 : pmPrev sStar = 0) (h1 : ∀ s, s ≠ sStar → 1 ≤ pmPrev s) :
    (∀ ns, ns ≠ transNext sStar bStar →
      1 ≤ (stepSymbol pmPrev (transOut sStar bStar)).pm ns) ∧
    (stepSymbol pmPrev (transOut sStar bStar)).pm (transNext sStar bStar) = 0 ∧
    (stepSymbol pmPrev (transOut sStar bStar)).pred (transNext sStar bStar)
      = (sStar : ℤ) ∧
    (stepSymbol pmPrev (transOut sStar bStar)).dec (transNext sStar bStar) = bStar := by
  refine foldl_relaxState_inv sStar bStar hs hb pmPrev h0 h1 (List.range NSTATE)
    initStep (fun ns _ => ?_) (Or.inl ⟨List.mem_range.mpr hs, ?_⟩)
  · show 1 ≤ INF
    norm_num [INF]
  · show 1 ≤ INF
    norm_num [INF]

theorem tracebackAux_append (A B : List VitStep) : ∀ sf : ℕ,
    tracebackAux (A ++ B) sf =
      ((tracebackAux B (tracebackAux A sf).2).1 ++ (tracebackAux A sf).1,
       (tracebackAux B (tracebackAux A sf).2).2) := by
  induction A with
  | nil => intro sf; simp [tracebackAux]
  | cons tb A ih =>
    intro sf
    simp only [List.cons_append, tracebackAux, List.append_eq]
    rw [ih]
    simp [List.append_assoc]

/-- Along the exact trellis output sequence of input `v` from state `sStar`,
the forward pass records the true path, and traceback from the final path
state recovers `v` exactly together with the start state `sStar`. -/
theorem forwardPass_traceback (v : List ℕ) : ∀ sStar, sStar < 64 →
    (∀ b ∈ v, b < 2) →
    ∀ pm0 : ℕ → ℕ, pm0 sStar = 0 → (∀ s, s ≠ sStar → 1 ≤ pm0 s) →
    tracebackAux ((forwardPass pm0 (outSeq sStar v)).2).reverse (pathFrom sStar v)
      = (v, sStar) := by
  induction v with
  | nil => intro sStar _ _ pm0 _ _; rfl
  | cons b rest ih =>
    intro sStar hs hv pm0 h0 h1
    have hb : b < 2 := hv b (List.mem_cons_self b rest)
    have hrest : ∀ x ∈ rest, x < 2 := fun x hx => hv x (List.mem_cons_of_mem b hx)
    have hstep := stepSymbol_true_path sStar b hs hb pm0 h0 h1
    set st := stepSymbol pm0 (transOut sStar b) with hst
    have hihx := ih (transNext sStar b) (transNext_lt sStar b) hrest st.pm
      hstep.2.1 (fun s hss => hstep.1 s hss)
    show tracebackAux ((forwardPass pm0 (transOut sStar b :: outSeq (transNext sStar b)
      rest)).2).reverse (pathFrom (transNext sStar b) rest) = (b :: rest, sStar)
    have hfp : (forwardPass pm0 (transOut sStar b :: outSeq (transNext sStar b)
        rest)).2 = st :: (forwardPass st.pm (outSeq (transNext sStar b) rest)).2 := by
      simp only [forwardPass]
    rw [hfp, List.reverse_cons, tracebackAux_append, hihx]
    have htb1 : tracebackAux [st] (transNext sStar b) = ([b], sStar) := by
      simp only [tracebackAux]
      rw [hstep.2.2.1, hstep.2.2.2]
      simp
    rw [htb1]
    rfl

end ConvK7R12

/-- Claim C3: for every finite bit string `u` with entries in `{0,1}`,
hard-decision Viterbi decoding of the exact encoder output reproduces the
input bit-exactly: `ConvK7R12::decode (ConvK7R12::encode u) = u`. -/
theorem C3_viterbi_roundtrip (u : List ℕ) (hu : ∀ b ∈ u, b = 0 ∨ b = 1) :
    ConvK7R12.decode (ConvK7R12.encode u) = u := by
  classical
  set v : List ℕ := u ++ List.replicate ConvK7R12.M 0 with hvdef
  have hv : ∀ b ∈ v, b < 2 := by
    intro b hb
    rcases List.mem_append.mp hb with h | h
    · rcases hu b h with h' | h' <;> omega
    · have := List.eq_of_mem_replicate h
      omega
  have hvlen : v.length = u.length + 6 := by
    simp [hvdef, ConvK7R12.M]
  have hlen : (ConvK7R12.encode u).length = 2 * v.length :=
    ConvK7R12.encodeFrom_length v 0
  have hns : (ConvK7R12.encode u).length / 2 = v.length := by
    rw [hlen]
    exact Nat.mul_div_cancel_left _ (by norm_num)
  have hsyms : ConvK7R12.toSyms (ConvK7R12.encode u) = ConvK7R12.outSeq 0 v := by
    have := ConvK7R12.toSyms_encodeFrom v 0 (by norm_num) hv
    simpa using this
  have hpm0 : ConvK7R12.pmInit 0 = 0 := by simp [ConvK7R12.pmInit]
  have hpm1 : ∀ s, s ≠ 0 → 1 ≤ ConvK7R12.pmInit s := by
    intro s hs
    simp only [ConvK7R12.pmInit, if_neg hs]
    norm_num [ConvK7R12.INF]
  have hfinal : ConvK7R12.pathFrom 0 v = 0 := by
    rw [hvdef, ConvK7R12.pathFrom_append]
    exact ConvK7R12.pathFrom_zeros _ (ConvK7R12.pathFrom_lt u 0 (by norm_num))
  have htb := ConvK7R12.forwardPass_traceback v 0 (by norm_num) hv
    ConvK7R12.pmInit hpm0 hpm1
  rw [hfinal] at htb
  simp only [ConvK7R12.decode, hns, hsyms]
  rw [if_neg (by omega)]
  rw [htb]
  by_cases hu0 : u.length = 0
  · have : u = [] := List.length_eq_zero.mp hu0
    subst this
    have : ¬ ConvK7R12.M < v.length := by
      rw [hvlen]
      simp [ConvK7R12.M]
    rw [if_neg this]
    simp
  · have hlt : ConvK7R12.M < v.length := by
      rw [hvlen]
      simp only [ConvK7R12.M]
      omega
    rw [if_pos hlt]
    have hK : v.length - ConvK7R12.M = u.length := by
      rw [hvlen]
      simp [ConvK7R12.M]
    rw [hK, hvdef]
    exact List.take_left u (List.replicate ConvK7R12.M 0)

/-- Concrete instance of C3: the round trip at `u = [1, 0, 1, 1, 0]`. -/
theorem C3_witness :
    (∀ b ∈ [1, 0, 1, 1, 0], b = 0 ∨ b = 1) ∧
    ConvK7R12.decode (ConvK7R12.encode [1, 0, 1, 1, 0]) = [1, 0, 1, 1, 0] :=
  ⟨by decide, C3_viterbi_roundtrip [1, 0, 1, 1, 0] (by decide)⟩

/-! ## Statistics and stop predicates (`simulation.cpp`), over `ℝ`

The engine computes the critical value `z` once per SNR point; all predicates
below take it as a parameter. -/

/-- `wilson_ci` from `simulation.cpp`: returns `(lo, hi, half-width)`. -/
noncomputable def wilson_ci (errs bits : ℕ) (z : ℝ) : ℝ × ℝ × ℝ :=
  if bits = 0 then (0, 1, 0.5)
  else
    let n : ℝ := (bits : ℝ)
    let p : ℝ := (errs : ℝ) / n
    let z2 : ℝ := z * z
    let denom : ℝ := 1 + z2 / n
    let center : ℝ := (p + z2 / (2 * n)) / denom
    let rad : ℝ := z * Real.sqrt (p * (1 - p) / n + z2 / (4 * n * n)) / denom
    (max 0 (center - rad), min 1 (center + rad), rad)

/-- Claim C9: for every error count and every critical value `z`, the Wilson
interval on zero trials is the full unit interval with half-width one half,
`wilson_ci errs 0 z = (0, 1, 0.5)`; the `bits = 0` case is total and raises
no error. -/
theorem C9_wilson_zero_trials (errs : ℕ) (z : ℝ) :
    wilson_ci errs 0 z = (0, 1, 0.5) := by
  simp [wilson_ci]

/-- The stopping parameters consumed by the worker's stop predicates. -/
structure StopParams where
  min_errors : ℕ
  max_bits : ℕ
  ber_floor : ℝ
  ci_abs : ℝ
  ci_rel : ℝ
  ci_min_bits : ℕ
  z : ℝ

/-- The `ci_goals_met` lambda of `simulate_framewise` (`simulation.cpp:98-111`). -/
noncomputable def ci_goals_met (P : StopParams) (bits errs : ℕ) : Prop :=
  if P.ci_abs ≤ 0 ∧ P.ci_rel ≤ 0 then True
  else if bits = 0 ∨ bits < P.ci_min_bits then False
  else
    let half := (wilson_ci errs bits P.z).2.2
    let p : ℝ := if 0 < bits then (errs : ℝ) / (bits : ℝ) else 0
    (P.ci_abs ≤ 0 ∨ half ≤ P.ci_abs) ∧
    (P.ci_rel ≤ 0 ∨ half ≤ P.ci_rel * max p 1e-12)

/-- The `floor_met` lambda of `simulate_framewise` (`simulation.cpp:112-122`). -/
noncomputable def floor_met (P : StopParams) (bits errs : ℕ) : Prop :=
  if P.ber_floor ≤ 0 then False
  else if bits = 0 ∨ bits < P.ci_min_bits then False
  else (wilson_ci errs bits P.z).2.1 ≤ P.ber_floor

/-- The stop decision a worker takes on the post-increment snapshots
(`simulation.cpp:206-209`): `stop_by_max || stop_by_floor || stop_by_ci`. -/
noncomputable def stopDecision (P : StopParams) (bits_after errs_after : ℕ) : Prop :=
  (0 < P.max_bits ∧ P.max_bits ≤ bits_after) ∨
  floor_met P bits_after errs_after ∨
  ((P.min_errors = 0 ∨ P.min_errors ≤ errs_after) ∧
    ci_goals_met P bits_after errs_after)

/-- The three stop predicates exactly as the specification words them
(Max-bits, BER-floor, CI-goals), for comparison with `stopDecision`. -/
noncomputable def specStopPredicates (P : StopParams) (b e : ℕ) : Prop :=
  (0 < P.max_bits ∧ P.max_bits ≤ b) ∨
  (0 < P.ber_floor ∧ P.ci_min_bits ≤ b ∧ (wilson_ci e b P.z).2.1 ≤ P.ber_floor) ∨
  ((P.min_errors = 0 ∨ P.min_errors ≤ e) ∧
    (if P.ci_abs ≤ 0 ∧ P.ci_rel ≤ 0 then True
     else P.ci_min_bits ≤ b ∧
       (0 < P.ci_abs → (wilson_ci e b P.z).2.2 ≤ P.ci_abs) ∧
       (0 < P.ci_rel →
         (wilson_ci e b P.z).2.2 ≤ P.ci_rel * max ((e : ℝ) / (b : ℝ)) 1e-12)))

/-- Claim C2: after a frame publish with post-increment snapshots `(b, e)`
(so `b > 0`), the worker stops if and only if one of the three stop
predicates of the specification holds: Max-bits, BER-floor (Wilson upper
bound), or CI-goals (trivially met when both CI widths are disabled). -/
theorem C2_stop_decision_iff (P : StopParams) (b e : ℕ) (hb : 0 < b) :
    stopDecision P b e ↔ specStopPredicates P b e := by
  have hbne : b ≠ 0 := Nat.pos_iff_ne_zero.mp hb
  unfold stopDecision specStopPredicates
  have hfloor : floor_met P b e ↔
      (0 < P.ber_floor ∧ P.ci_min_bits ≤ b ∧ (wilson_ci e b P.z).2.1 ≤ P.ber_floor) := by
    unfold floor_met
    by_cases hf : P.ber_floor ≤ 0
    · rw [if_pos hf]
      simp only [false_iff, not_and, not_lt]
      intro h
      exact absurd hf (not_le.mpr h)
    · rw [if_neg hf]
      by_cases hmin : b < P.ci_min_bits
      · rw [if_pos (Or.inr hmin)]
        simp only [false_iff]
        intro h
        exact absurd h.2.1 (not_le.mpr hmin)
      · rw [if_neg (by push_neg; exact ⟨hbne, not_lt.mp hmin⟩)]
        constructor
        · intro h
          exact ⟨not_le.mp hf, not_lt.mp hmin, h⟩
        · intro h
          exact h.2.2
  have hci : ci_goals_met P b e ↔
      (if P.ci_abs ≤ 0 ∧ P.ci_rel ≤ 0 then True
       else P.ci_min_bits ≤ b ∧
         (0 < P.ci_abs → (wilson_ci e b P.z).2.2 ≤ P.ci_abs) ∧
         (0 < P.ci_rel →
           (wilson_ci e b P.z).2.2 ≤ P.ci_rel * max ((e : ℝ) / (b : ℝ)) 1e-12)) := by
    unfold ci_goals_met
    by_cases hdis : P.ci_abs ≤ 0 ∧ P.ci_rel ≤ 0
    · rw [if_pos hdis, if_pos hdis]
    · rw [if_neg hdis, if_neg hdis]
      by_cases hmin : b < P.ci_min_bits
      · rw [if_pos (Or.inr hmin)]
        simp only [false_iff, not_and]
        intro h
        exact absurd h (not_le.mpr hmin)
      · rw [if_neg (by push_neg; exact ⟨hbne, not_lt.mp hmin⟩)]
        simp only [if_pos hb]
        constructor
        · intro h
          refine ⟨not_lt.mp hmin, fun ha => ?_, fun hr => ?_⟩
          · rcases h.1 with h' | h'
            · exact absurd h' (not_le.mpr ha)
            · exact h'
          · rcases h.2 with h' | h'
            · exact absurd h' (not_le.mpr hr)
            · exact h'
        · intro h
          constructor
          · rcases le_or_lt P.ci_abs 0 with h' | h'
            · exact Or.inl h'
            · exact Or.inr (h.2.1 h')
          · rcases le_or_lt P.ci_rel 0 with h' | h'
            · exact Or.inl h'
            · exact Or.inr (h.2.2 h')
  rw [hfloor, hci]

/-- Concrete instance of C2: with `max_bits = 100`, all other criteria
disabled, and snapshot `(b, e) = (100, 0)`, both sides of the equivalence
hold by the Max-bits predicate. -/
theorem C2_witness :
    (0 : ℕ) < 100 ∧
    (stopDecision ⟨0, 100, 0, 0, 0, 0, 0⟩ 100 0 ↔
      specStopPredicates ⟨0, 100, 0, 0, 0, 0, 0⟩ 100 0) :=
  ⟨by norm_num, C2_stop_decision_iff ⟨0, 100, 0, 0, 0, 0, 0⟩ 100 0 (by norm_num)⟩

/-! ## Wilson interval bracketing -/

/-- Polynomial core of the Wilson bracketing argument. -/
theorem key_poly (a b c : ℝ) (ha : 0 ≤ a) (hb0 : 0 ≤ b) (hb1 : b ≤ 1) (hc : 1 ≤ c) :
    (a / c * (1 / 2 - b)) ^ 2 ≤ a * (b * (1 - b) / c + a / (4 * c * c)) := by
  have hc0 : (0 : ℝ) < c := by linarith
  have h1 : 0 ≤ b * (1 - b) := mul_nonneg hb0 (by linarith)
  have hident : a * (b * (1 - b) / c + a / (4 * c * c)) - (a / c * (1 / 2 - b)) ^ 2
      = (b * (1 - b)) * a * (a + c) / (c * c) := by
    field_simp
    ring
  have hnn : 0 ≤ (b * (1 - b)) * a * (a + c) / (c * c) :=
    div_nonneg (mul_nonneg (mul_nonneg h1 ha) (by linarith)) (by positivity)
  linarith [hident, hnn]

theorem wilson_bracket (n p z : ℝ) (hn1 : 1 ≤ n) (hp0 : 0 ≤ p) (hp1 : p ≤ 1)
    (hz : 0 ≤ z) :
    (p + z * z / (2 * n)) / (1 + z * z / n)
      - z * Real.sqrt (p * (1 - p) / n + z * z / (4 * n * n)) / (1 + z * z / n) ≤ p ∧
    p ≤ (p + z * z / (2 * n)) / (1 + z * z / n)
      + z * Real.sqrt (p * (1 - p) / n + z * z / (4 * n * n)) / (1 + z * z / n) := by
  have hn0 : (0 : ℝ) < n := by linarith
  have hz2 : 0 ≤ z * z := mul_self_nonneg z
  have hd : (0 : ℝ) < 1 + z * z / n := by positivity
  have hpq : 0 ≤ p * (1 - p) := mul_nonneg hp0 (by linarith)
  have hX : 0 ≤ p * (1 - p) / n + z * z / (4 * n * n) := by positivity
  have hsnn : 0 ≤ z * Real.sqrt (p * (1 - p) / n + z * z / (4 * n * n)) :=
    mul_nonneg hz (Real.sqrt_nonneg _)
  have key : (z * z / n * (1 / 2 - p)) ^ 2
      ≤ (z * Real.sqrt (p * (1 - p) / n + z * z / (4 * n * n))) ^ 2 := by
    have hexp : (z * Real.sqrt (p * (1 - p) / n + z * z / (4 * n * n))) ^ 2
        = (z * z) * (p * (1 - p) / n + z * z / (4 * n * n)) := by
      rw [mul_pow, Real.sq_sqrt hX]
      ring
    rw [hexp]
    exact key_poly (z * z) p n hz2 hp0 hp1 hn1
  have habs : |z * z / n * (1 / 2 - p)|
      ≤ z * Real.sqrt (p * (1 - p) / n + z * z / (4 * n * n)) := by
    have h := Real.sqrt_le_sqrt key
    rwa [Real.sqrt_sq_eq_abs, Real.sqrt_sq hsnn] at h
  have hcp : (p + z * z / (2 * n)) / (1 + z * z / n) - p
      = (z * z / n * (1 / 2 - p)) / (1 + z * z / n) := by
    field_simp
    ring
  have habs2 : |(p + z * z / (2 * n)) / (1 + z * z / n) - p|
      ≤ z * Real.sqrt (p * (1 - p) / n + z * z / (4 * n * n)) / (1 + z * z / n) := by
    rw [hcp, abs_div, abs_of_pos hd]
    exact div_le_div_of_nonneg_right habs hd.le
  have hr := abs_le.mp habs2
  constructor
  · linarith [hr.2]
  · linarith [hr.1]

/-- The Wilson center/radius bracket the proportion `p`. -/
theorem wilson_ci_bounds (errs bits : ℕ) (z : ℝ) (hb : 0 < bits) (he : errs ≤ bits)
    (hz : 0 ≤ z) :
    0 ≤ (wilson_ci errs bits z).1 ∧
    (wilson_ci errs bits z).1 ≤ (errs : ℝ) / (bits : ℝ) ∧
    (errs : ℝ) / (bits : ℝ) ≤ (wilson_ci errs bits z).2.1 ∧
    (wilson_ci errs bits z).2.1 ≤ 1 := by
  have hbne : bits ≠ 0 := Nat.pos_iff_ne_zero.mp hb
  have hn1 : (1 : ℝ) ≤ (bits : ℝ) := by exact_mod_cast hb
  have hn0 : (0 : ℝ) < (bits : ℝ) := lt_of_lt_of_le one_pos hn1
  have hp0 : 0 ≤ (errs : ℝ) / (bits : ℝ) :=
    div_nonneg (Nat.cast_nonneg errs) hn0.le
  have hp1 : (errs : ℝ) / (bits : ℝ) ≤ 1 := by
    rw [div_le_one hn0]
    exact_mod_cast he
  have hbr := wilson_bracket (bits : ℝ) ((errs : ℝ) / (bits : ℝ)) z hn1 hp0 hp1 hz
  simp only [wilson_ci, if_neg hbne]
  refine ⟨le_max_left _ _, ?_, ?_, min_le_left _ _⟩
  · exact max_le hp0 (by linarith [hbr.1])
  · exact le_min hp1 (by linarith [hbr.2])

/-! ## The engine (`simulate_framewise`) as a schedule-indexed transition system

One scheduler step lets one worker act: an idle worker checks `stop` (halting
if set, otherwise starting a frame), a worker in a frame publishes its frame
totals, consults the stop predicates on the post-increment snapshots, and
either halts (setting `stop`) or returns to idle.  The per-frame `(bits,
errs)` contributions of each worker are a parameter `frames`, abstracting the
worker's RNG-driven chain. -/

/-- `BerResult` from `simulation.hpp`. -/
structure BerResult where
  ber : ℝ
  bits : ℕ
  errs : ℕ
  ci_lo : ℝ
  ci_hi : ℝ

/-- The aggregate computation at the end of `simulate_framewise`
(`simulation.cpp:224-229`). -/
noncomputable def aggregateResult (ci_abs ci_rel z : ℝ) (total_bits total_err : ℕ) :
    BerResult :=
  let lohi := if (0 < ci_abs ∨ 0 < ci_rel) ∧ 0 < total_bits ∧ 0 < z
    then wilson_ci total_err total_bits z else (0, 0, 0)
  let ber : ℝ := if 0 < total_bits then (total_err : ℝ) / (total_bits : ℝ) else 0
  ⟨ber, total_bits, total_err, lohi.1, lohi.2.1⟩

/-- Phases of one worker thread. -/
inductive WPhase where
  | idle
  | inflight
  | halted
deriving DecidableEq

/-- The shared engine state: the two atomic counters, the stop flag, and each
worker's phase and completed-frame count. -/
structure EngState where
  bits : ℕ
  errs : ℕ
  stop : Bool
  phase : ℕ → WPhase
  count : ℕ → ℕ

/-- State at engine entry: counters zero, `stop = false`, workers idle. -/
def initEngState : EngState := ⟨0, 0, false, fun _ => .idle, fun _ => 0⟩

open Classical in
/-- One scheduler step of worker `w`: the loop-top `stop` check, or the
publish of one frame followed by the stop-predicate consultation
(`simulation.cpp:140-214`). -/
noncomputable def stepWorker (P : StopParams) (frames : ℕ → ℕ → ℕ × ℕ)
    (st : EngState) (w : ℕ) : EngState :=
  match st.phase w with
  | .halted => st
  | .idle =>
    if st.stop then { st with phase := Function.update st.phase w .halted }
    else { st with phase := Function.update st.phase w .inflight }
  | .inflight =>
    let fr := frames w (st.count w)
    let bits' := st.bits + fr.1
    let errs' := st.errs + fr.2
    if stopDecision P bits' errs' then
      { bits := bits', errs := errs', stop := true,
        phase := Function.update st.phase w .halted,
        count := Function.update st.count w (st.count w + 1) }
    else
      { bits := bits', errs := errs', stop := st.stop,
        phase := Function.update st.phase w .idle,
        count := Function.update st.count w (st.count w + 1) }

/-- Run the engine under an explicit interleaving (list of worker indices). -/
noncomputable def execSched (P : StopParams) (frames : ℕ → ℕ → ℕ × ℕ)
    (sched : List ℕ) : EngState :=
  sched.foldl (stepWorker P frames) initEngState

/-- The `BerResult` the engine returns after the interleaving `sched`. -/
noncomputable def engineResult (P : StopParams) (frames : ℕ → ℕ → ℕ × ℕ)
    (sched : List ℕ) : BerResult :=
  aggregateResult P.ci_abs P.ci_rel P.z (execSched P frames sched).bits
    (execSched P frames sched).errs

theorem stepWorker_errs_le_bits (P : StopParams) (frames : ℕ → ℕ → ℕ × ℕ)
    (hf : ∀ w k, (frames w k).2 ≤ (frames w k).1) (st : EngState) (w : ℕ)
    (h : st.errs ≤ st.bits) :
    (stepWorker P frames st w).errs ≤ (stepWorker P frames st w).bits := by
  unfold stepWorker
  rcases hph : st.phase w with _ | _ | _ <;> simp only [hph]
  · split <;> exact h
  · have := hf w (st.count w)
    split <;> simp only [] <;> omega
  · exact h

theorem execSched_errs_le_bits (P : StopParams) (frames : ℕ → ℕ → ℕ × ℕ)
    (hf : ∀ w k, (frames w k).2 ≤ (frames w k).1) (sched : List ℕ) :
    (execSched P frames sched).errs ≤ (execSched P frames sched).bits := by
  unfold execSched
  have hgen : ∀ (l : List ℕ) (st : EngState), st.errs ≤ st.bits →
      (l.foldl (stepWorker P frames) st).errs ≤ (l.foldl (stepWorker P frames) st).bits := by
    intro l
    induction l with
    | nil => intro st h; exact h
    | cons a l ih =>
      intro st h
      exact ih _ (stepWorker_errs_le_bits P frames hf st a h)
  exact hgen sched initEngState (le_refl 0)

/-- Invariants of the aggregate `BerResult` computed from totals `E ≤ B`. -/
theorem aggregateResult_invariants (ci_abs ci_rel z : ℝ) (B E : ℕ) (he : E ≤ B) :
    (aggregateResult ci_abs ci_rel z B E).errs ≤ (aggregateResult ci_abs ci_rel z B E).bits ∧
    (aggregateResult ci_abs ci_rel z B E).ber =
      (if 0 < B then (E : ℝ) / (B : ℝ) else 0) ∧
    (((0 < ci_abs ∨ 0 < ci_rel) ∧ 0 < B ∧ 0 < z) →
      (0 ≤ (aggregateResult ci_abs ci_rel z B E).ci_lo ∧
       (aggregateResult ci_abs ci_rel z B E).ci_lo ≤ (aggregateResult ci_abs ci_rel z B E).ber ∧
       (aggregateResult ci_abs ci_rel z B E).ber ≤ (aggregateResult ci_abs ci_rel z B E).ci_hi ∧
       (aggregateResult ci_abs ci_rel z B E).ci_hi ≤ 1)) ∧
    (¬((0 < ci_abs ∨ 0 < ci_rel) ∧ 0 < B ∧ 0 < z) →
      (aggregateResult ci_abs ci_rel z B E).ci_lo = 0 ∧
      (aggregateResult ci_abs ci_rel z B E).ci_hi = 0) := by
  refine ⟨he, rfl, ?_, ?_⟩
  · intro hcomp
    have hw := wilson_ci_bounds E B z hcomp.2.1 he hcomp.2.2.le
    show 0 ≤ (if (0 < ci_abs ∨ 0 < ci_rel) ∧ 0 < B ∧ 0 < z
        then wilson_ci E B z else (0, 0, 0)).1 ∧ _
    rw [if_pos hcomp]
    simp only [aggregateResult]
    rw [if_pos hcomp, if_pos hcomp.2.1]
    exact ⟨hw.1, hw.2.1, hw.2.2.1, hw.2.2.2⟩
  · intro hcomp
    simp only [aggregateResult]
    rw [if_neg hcomp]
    exact ⟨rfl, rfl⟩

/-- Claim C5: every `BerResult` the engine returns satisfies `errs ≤ bits`;
`ber = errs/bits` if `bits > 0` and `ber = 0` otherwise; and when a CI was
computed (CI enabled, at least one bit simulated, and `z > 0`)
`0 ≤ ci_lo ≤ ber ≤ ci_hi ≤ 1`, else `ci_lo = ci_hi = 0`.  The per-frame
contributions satisfy `errs ≤ bits` frame-wise (hypothesis `hf`), matching
the error counting over `min(|u|, |u_hat|)` positions. -/
theorem C5_berresult_invariants (P : StopParams) (frames : ℕ → ℕ → ℕ × ℕ)
    (hf : ∀ w k, (frames w k).2 ≤ (frames w k).1) (sched : List ℕ) :
    (engineResult P frames sched).errs ≤ (engineResult P frames sched).bits ∧
    (engineResult P frames sched).ber =
      (if 0 < (engineResult P frames sched).bits
       then ((engineResult P frames sched).errs : ℝ) /
         ((engineResult P frames sched).bits : ℝ) else 0) ∧
    (((0 < P.ci_abs ∨ 0 < P.ci_rel) ∧ 0 < (execSched P frames sched).bits ∧ 0 < P.z) →
      (0 ≤ (engineResult P frames sched).ci_lo ∧
       (engineResult P frames sched).ci_lo ≤ (engineResult P frames sched).ber ∧
       (engineResult P frames sched).ber ≤ (engineResult P frames sched).ci_hi ∧
       (engineResult P frames sched).ci_hi ≤ 1)) ∧
    (¬((0 < P.ci_abs ∨ 0 < P.ci_rel) ∧ 0 < (execSched P frames sched).bits ∧ 0 < P.z) →
      (engineResult P frames sched).ci_lo = 0 ∧
      (engineResult P frames sched).ci_hi = 0) := by
  have hEB := execSched_errs_le_bits P frames hf sched
  have h := aggregateResult_invariants P.ci_abs P.ci_rel P.z
    (execSched P frames sched).bits (execSched P frames sched).errs hEB
  exact h

/-- Concrete instance of C5: one worker, one published frame of 1 bit and 0
errors, CI disabled. -/
theorem C5_witness :
    (∀ w k, ((fun _ _ => (1, 0) : ℕ → ℕ → ℕ × ℕ) w k).2 ≤
      ((fun _ _ => (1, 0) : ℕ → ℕ → ℕ × ℕ) w k).1) ∧
    ((engineResult ⟨0, 1, 0, 0, 0, 0, 0⟩ (fun _ _ => (1, 0)) [0, 0]).errs ≤
      (engineResult ⟨0, 1, 0, 0, 0, 0, 0⟩ (fun _ _ => (1, 0)) [0, 0]).bits) :=
  ⟨fun _ _ => by norm_num,
   (C5_berresult_invariants ⟨0, 1, 0, 0, 0, 0, 0⟩ (fun _ _ => (1, 0))
     (fun _ _ => by norm_num) [0, 0]).1⟩

/-! ## Driver sweep early stop (`main.cpp:203-209`) -/

/-- The driver's early-stop condition after one SNR point:
`ber_for_stop = (ci_hi > 0 ? ci_hi : ber)` and break iff
`ber_floor > 0 ∧ ber_for_stop ≤ ber_floor`. -/
noncomputable def sweepBreak (ber_floor : ℝ) (r : BerResult) : Prop :=
  0 < ber_floor ∧ (if 0 < r.ci_hi then r.ci_hi else r.ber) ≤ ber_floor

theorem aggregateResult_ber_nonneg (ci_abs ci_rel z : ℝ) (B E : ℕ) :
    0 ≤ (aggregateResult ci_abs ci_rel z B E).ber := by
  show (0 : ℝ) ≤ if 0 < B then (E : ℝ) / (B : ℝ) else 0
  split
  · positivity
  · exact le_refl 0

theorem aggregateResult_ber_le_hi (ci_abs ci_rel z : ℝ) (B E : ℕ) (he : E ≤ B) :
    (aggregateResult ci_abs ci_rel z B E).ci_hi = 0 ∨
    (aggregateResult ci_abs ci_rel z B E).ber ≤ (aggregateResult ci_abs ci_rel z B E).ci_hi := by
  by_cases hcomp : (0 < ci_abs ∨ 0 < ci_rel) ∧ 0 < B ∧ 0 < z
  · right
    have hw := wilson_ci_bounds E B z hcomp.2.1 he hcomp.2.2.le
    show (if 0 < B then (E : ℝ) / (B : ℝ) else 0) ≤
      (if (0 < ci_abs ∨ 0 < ci_rel) ∧ 0 < B ∧ 0 < z
        then wilson_ci E B z else (0, 0, 0)).2.1
    rw [if_pos hcomp, if_pos hcomp.2.1]
    exact hw.2.2.1
  · left
    show (if (0 < ci_abs ∨ 0 < ci_rel) ∧ 0 < B ∧ 0 < z
      then wilson_ci E B z else (0, 0, 0)).2.1 = 0
    rw [if_neg hcomp]

theorem sweepBreak_iff_max (f : ℝ) (r : BerResult) (h1 : 0 ≤ r.ber)
    (h2 : r.ci_hi = 0 ∨ r.ber ≤ r.ci_hi) :
    sweepBreak f r ↔ (0 < f ∧ max r.ci_hi r.ber ≤ f) := by
  unfold sweepBreak
  refine and_congr_right fun _ => ?_
  rcases h2 with hzero | hle
  · rw [hzero]
    rw [if_neg (lt_irrefl 0), max_eq_right h1]
  · by_cases hpos : 0 < r.ci_hi
    · rw [if_pos hpos, max_eq_left hle]
    · have hc0 : r.ci_hi = 0 := le_antisymm (not_lt.mp hpos) (h1.trans hle)
      have hb0 : r.ber = 0 := le_antisymm (hle.trans (not_lt.mp hpos)) h1
      rw [if_neg hpos, hb0, hc0, max_self]

/-- Claim C7: for results produced by the engine, the driver breaks out of
the SNR sweep if and only if `ber_floor > 0` and `max(ci_hi, ber) ≤
ber_floor` for that point's result (the source's `(ci_hi > 0 ? ci_hi : ber)`
agrees with `max(ci_hi, ber)` on every engine result). -/
theorem C7_sweep_early_stop (P : StopParams) (frames : ℕ → ℕ → ℕ × ℕ)
    (hf : ∀ w k, (frames w k).2 ≤ (frames w k).1) (sched : List ℕ) (ber_floor : ℝ) :
    sweepBreak ber_floor (engineResult P frames sched) ↔
      (0 < ber_floor ∧
        max (engineResult P frames sched).ci_hi (engineResult P frames sched).ber
          ≤ ber_floor) := by
  apply sweepBreak_iff_max
  · exact aggregateResult_ber_nonneg _ _ _ _ _
  · exact aggregateResult_ber_le_hi _ _ _ _ _
      (execSched_errs_le_bits P frames hf sched)

/-- Concrete instance of C7: one worker, CI disabled, `ber_floor = 1/2`. -/
theorem C7_witness :
    (∀ w k, ((fun _ _ => (1, 0) : ℕ → ℕ → ℕ × ℕ) w k).2 ≤
      ((fun _ _ => (1, 0) : ℕ → ℕ → ℕ × ℕ) w k).1) ∧
    (sweepBreak (1 / 2) (engineResult ⟨0, 1, 0, 0, 0, 0, 0⟩ (fun _ _ => (1, 0)) [0, 0]) ↔
      (0 < (1 / 2 : ℝ) ∧
        max (engineResult ⟨0, 1, 0, 0, 0, 0, 0⟩ (fun _ _ => (1, 0)) [0, 0]).ci_hi
          (engineResult ⟨0, 1, 0, 0, 0, 0, 0⟩ (fun _ _ => (1, 0)) [0, 0]).ber ≤ 1 / 2)) :=
  ⟨fun _ _ => by norm_num,
   C7_sweep_early_stop ⟨0, 1, 0, 0, 0, 0, 0⟩ (fun _ _ => (1, 0))
     (fun _ _ => by norm_num) [0, 0] (1 / 2)⟩

/-! ## Determinism across interleavings (engine) -/

/-- Fixture stopping parameters: `max_bits = 100`, `min_errors = 1000`, BER
floor and CI disabled. -/
noncomputable def stopParamsMax100 : StopParams := ⟨1000, 100, 0, 0, 0, 0, 0⟩

/-- Fixture frame streams: both workers produce identical frames of 100 bits
with 3 errors. -/
def framesConst : ℕ → ℕ → ℕ × ℕ := fun _ _ => (100, 3)

theorem stopDecision_max100 (b e : ℕ) (he : e < 1000) :
    stopDecision stopParamsMax100 b e ↔ 100 ≤ b := by
  simp only [stopDecision, floor_met, ci_goals_met, stopParamsMax100]
  rw [if_pos (le_refl (0 : ℝ)), if_pos ⟨le_refl (0 : ℝ), le_refl (0 : ℝ)⟩]
  simp only [if_true, iff_true, and_true, false_or, or_false]
  omega

theorem evalA1 :
    (stepWorker stopParamsMax100 framesConst initEngState 0).bits = 0 ∧
    (stepWorker stopParamsMax100 framesConst initEngState 0).errs = 0 ∧
    (stepWorker stopParamsMax100 framesConst initEngState 0).stop = false ∧
    (stepWorker stopParamsMax100 framesConst initEngState 0).phase 0 = .inflight ∧
    (stepWorker stopParamsMax100 framesConst initEngState 0).phase 1 = .idle ∧
    (stepWorker stopParamsMax100 framesConst initEngState 0).count 0 = 0 ∧
    (stepWorker stopParamsMax100 framesConst initEngState 0).count 1 = 0 := by
  refine ⟨?_, ?_, ?_, ?_, ?_, ?_, ?_⟩ <;>
    simp [stepWorker, initEngState, Function.update]

theorem evalA2 :
    (stepWorker stopParamsMax100 framesConst
      (stepWorker stopParamsMax100 framesConst initEngState 0) 0).bits = 100 ∧
    (stepWorker stopParamsMax100 framesConst
      (stepWorker stopParamsMax100 framesConst initEngState 0) 0).errs = 3 ∧
    (stepWorker stopParamsMax100 framesConst
      (stepWorker stopParamsMax100 framesConst initEngState 0) 0).stop = true ∧
    (stepWorker stopParamsMax100 framesConst
      (stepWorker stopParamsMax100 framesConst initEngState 0) 0).phase 0 = .halted ∧
    (stepWorker stopParamsMax100 framesConst
      (stepWorker stopParamsMax100 framesConst initEngState 0) 0).phase 1 = .idle := by
  have h1 := evalA1
  have hcond : stopDecision stopParamsMax100 100 3 :=
    (stopDecision_max100 100 3 (by norm_num)).mpr (by norm_num)
  refine ⟨?_, ?_, ?_, ?_, ?_⟩ <;>
    (conv_lhs => rw [stepWorker]) <;>
    simp [h1.2.2.2.1, h1.1, h1.2.1, h1.2.2.2.2.2.1, framesConst, hcond, Function.update,
      h1.2.2.2.2.1]

theorem evalB2 :
    (stepWorker stopParamsMax100 framesConst
      (stepWorker stopParamsMax100 framesConst initEngState 0) 1).bits = 0 ∧
    (stepWorker stopParamsMax100 framesConst
      (stepWorker stopParamsMax100 framesConst initEngState 0) 1).errs = 0 ∧
    (stepWorker stopParamsMax100 framesConst
      (stepWorker stopParamsMax100 framesConst initEngState 0) 1).stop = false ∧
    (stepWorker stopParamsMax100 framesConst
      (stepWorker stopParamsMax100 framesConst initEngState 0) 1).phase 0 = .inflight ∧
    (stepWorker stopParamsMax100 framesConst
      (stepWorker stopParamsMax100 framesConst initEngState 0) 1).phase 1 = .inflight ∧
    (stepWorker stopParamsMax100 framesConst
      (stepWorker stopParamsMax100 framesConst initEngState 0) 1).count 0 = 0 ∧
    (stepWorker stopParamsMax100 framesConst
      (stepWorker stopParamsMax100 framesConst initEngState 0) 1).count 1 = 0 := by
  have h1 := evalA1
  refine ⟨?_, ?_, ?_, ?_, ?_, ?_, ?_⟩ <;>
    (conv_lhs => rw [stepWorker]) <;>
    simp [h1.1, h1.2.1, h1.2.2.1, h1.2.2.2.1, h1.2.2.2.2.1, h1.2.2.2.2.2.1,
      h1.2.2.2.2.2.2, Function.update]

theorem evalB3 :
    (stepWorker stopParamsMax100 framesConst (stepWorker stopParamsMax100 framesConst
      (stepWorker stopParamsMax100 framesConst initEngState 0) 1) 0).bits = 100 ∧
    (stepWorker stopParamsMax100 framesConst (stepWorker stopParamsMax100 framesConst
      (stepWorker stopParamsMax100 framesConst initEngState 0) 1) 0).errs = 3 ∧
    (stepWorker stopParamsMax100 framesConst (stepWorker stopParamsMax100 framesConst
      (stepWorker stopParamsMax100 framesConst initEngState 0) 1) 0).phase 1
      = .inflight ∧
    (stepWorker stopParamsMax100 framesConst (stepWorker stopParamsMax100 framesConst
      (stepWorker stopParamsMax100 framesConst initEngState 0) 1) 0).count 1 = 0 := by
  have h2 := evalB2
  have hcond : stopDecision stopParamsMax100 100 3 :=
    (stopDecision_max100 100 3 (by norm_num)).mpr (by norm_num)
  refine ⟨?_, ?_, ?_, ?_⟩ <;>
    (conv_lhs => rw [stepWorker]) <;>
    simp [h2.1, h2.2.1, h2.2.2.2.1, h2.2.2.2.2.1, h2.2.2.2.2.2.1, h2.2.2.2.2.2.2,
      framesConst, hcond, Function.update]

theorem execA_bits :
    (execSched stopParamsMax100 framesConst [0, 0, 1]).bits = 100 := by
  have h2 := evalA2
  show (stepWorker stopParamsMax100 framesConst (stepWorker stopParamsMax100 framesConst
    (stepWorker stopParamsMax100 framesConst initEngState 0) 0) 1).bits = 100
  conv_lhs => rw [stepWorker]
  simp [h2.1, h2.2.2.1, h2.2.2.2.1, h2.2.2.2.2]

theorem execB_bits :
    (execSched stopParamsMax100 framesConst [0, 1, 0, 1]).bits = 200 := by
  have h3 := evalB3
  have hcond : stopDecision stopParamsMax100 200 6 :=
    (stopDecision_max100 200 6 (by norm_num)).mpr (by norm_num)
  show (stepWorker stopParamsMax100 framesConst (stepWorker stopParamsMax100 framesConst
    (stepWorker stopParamsMax100 framesConst (stepWorker stopParamsMax100 framesConst
      initEngState 0) 1) 0) 1).bits = 200
  conv_lhs => rw [stepWorker]
  simp [h3.1, h3.2.1, h3.2.2.1, h3.2.2.2, framesConst, hcond]

theorem aggregateResult_bits (ci_abs ci_rel z : ℝ) (B E : ℕ) :
    (aggregateResult ci_abs ci_rel z B E).bits = B := rfl

/-- Claim C4 as stated is false on the code: with identical configuration,
identical worker count (2), and identical per-worker frame streams (hence
identical seeds), two legal thread interleavings produce different results —
one stops at 100 total bits, the other at 200 (the second worker is in
flight when `stop` is set and publishes its frame).  The two interleavings
are serialized executions the spec itself admits (over-shoot on stop). -/
theorem C4_counterexample :
    engineResult stopParamsMax100 framesConst [0, 0, 1] ≠
      engineResult stopParamsMax100 framesConst [0, 1, 0, 1] := by
  intro h
  have hb := congrArg BerResult.bits h
  rw [engineResult, engineResult, aggregateResult_bits, aggregateResult_bits,
    execA_bits, execB_bits] at hb
  norm_num at hb

theorem stepWorker_of_halted (P : StopParams) (frames : ℕ → ℕ → ℕ × ℕ)
    (st : EngState) (w : ℕ) (h : st.phase w = .halted) :
    stepWorker P frames st w = st := by
  unfold stepWorker
  rw [h]

theorem execSched_replicate_add (P : StopParams) (frames : ℕ → ℕ → ℕ × ℕ)
    (m j : ℕ) :
    execSched P frames (List.replicate (m + j) 0) =
      (List.replicate j 0).foldl (stepWorker P frames)
        (execSched P frames (List.replicate m 0)) := by
  unfold execSched
  rw [List.replicate_add, List.foldl_append]

theorem foldl_replicate_halted (P : StopParams) (frames : ℕ → ℕ → ℕ × ℕ)
    (st : EngState) (h : st.phase 0 = .halted) (j : ℕ) :
    (List.replicate j 0).foldl (stepWorker P frames) st = st := by
  induction j with
  | zero => rfl
  | succ j ih =>
    rw [List.replicate_succ, List.foldl_cons, stepWorker_of_halted P frames st 0 h]
    exact ih

/-- Claim C4, amended: the result is a deterministic function of the
configuration, the per-worker frame streams (determined by the seed) and the
interleaving; in particular with a single worker any two complete runs
(scheduler step counts `m`, `k` that let the worker halt) return identical
results.  Across interleavings at two or more workers the result can differ
(`C4_counterexample`). -/
theorem C4_single_worker_deterministic (P : StopParams) (frames : ℕ → ℕ → ℕ × ℕ)
    (m k : ℕ)
    (hm : (execSched P frames (List.replicate m 0)).phase 0 = .halted)
    (hk : (execSched P frames (List.replicate k 0)).phase 0 = .halted) :
    engineResult P frames (List.replicate m 0) =
      engineResult P frames (List.replicate k 0) := by
  suffices hst : execSched P frames (List.replicate m 0) =
      execSched P frames (List.replicate k 0) by
    unfold engineResult
    rw [hst]
  rcases le_total m k with h | h
  · obtain ⟨j, rfl⟩ : ∃ j, k = m + j := ⟨k - m, by omega⟩
    rw [execSched_replicate_add, foldl_replicate_halted P frames _ hm]
  · obtain ⟨j, rfl⟩ : ∃ j, m = k + j := ⟨m - k, by omega⟩
    rw [execSched_replicate_add, foldl_replicate_halted P frames _ hk]

theorem exec2_halted :
    (execSched stopParamsMax100 framesConst (List.replicate 2 0)).phase 0
      = .halted := by
  have h2 := evalA2
  show (stepWorker stopParamsMax100 framesConst
    (stepWorker stopParamsMax100 framesConst initEngState 0) 0).phase 0 = .halted
  exact h2.2.2.2.1

theorem exec3_halted :
    (execSched stopParamsMax100 framesConst (List.replicate 3 0)).phase 0
      = .halted := by
  have heq : execSched stopParamsMax100 framesConst (List.replicate 3 0) =
      execSched stopParamsMax100 framesConst (List.replicate 2 0) := by
    have h := execSched_replicate_add stopParamsMax100 framesConst 2 1
    rw [show (3 : ℕ) = 2 + 1 from rfl, h,
      foldl_replicate_halted _ _ _ exec2_halted]
  rw [heq]
  exact exec2_halted

/-- Concrete instance of the amended C4: a single worker halting after 2 or
after 3 scheduler steps returns the same result. -/
theorem C4_witness :
    engineResult stopParamsMax100 framesConst (List.replicate 2 0) =
      engineResult stopParamsMax100 framesConst (List.replicate 3 0) :=
  C4_single_worker_deterministic stopParamsMax100 framesConst 2 3
    exec2_halted exec3_halted

/-! ## The per-frame chain (`simulate_framewise` worker body)

`walkSymbols` is the modulate → transmit → equalize → demodulate loop over
the coded stream in groups of `bits_per_symbol` bits (`simulation.cpp:153-188`,
hard-decision path).  The zero-padded 8-slot scratch array is modelled by the
modems reading their inputs with `List.getD _ 0`; the `i + k < c.size()`
guard becomes `take (length of the remaining bits)`.  The channel is a
function of the symbol index (one RNG draw per symbol). -/

def walkSymbols (chan : ℕ → ℚ → ChannelOutput) (sigma : ℚ) (mod : List ℕ → ℚ)
    (demod : ℚ → List ℕ) (mbs : ℕ) : ℕ → List ℕ → List ℕ
  | _, [] => []
  | idx, h :: t =>
    (demod (equalize (chan idx (mod (h :: t))) sigma).1).take (h :: t).length ++
      walkSymbols chan sigma mod demod mbs (idx + 1) (t.drop (mbs - 1))
termination_by _idx rem => rem.length
decreasing_by simp only [List.length_drop, List.length_cons]; omega

theorem walkSymbols_length (chan : ℕ → ℚ → ChannelOutput) (sigma : ℚ)
    (mod : List ℕ → ℚ) (demod : ℚ → List ℕ) (mbs : ℕ)
    (hd : ∀ r, (demod r).length = mbs) (hm : 0 < mbs) :
    ∀ (N idx : ℕ) (rem : List ℕ), rem.length ≤ N →
      (walkSymbols chan sigma mod demod mbs idx rem).length = rem.length := by
  intro N
  induction N with
  | zero =>
    intro idx rem h
    have : rem = [] := List.length_eq_zero.mp (Nat.le_zero.mp h)
    subst this
    rw [walkSymbols]
  | succ N ih =>
    intro idx rem h
    match rem with
    | [] => rw [walkSymbols]
    | x :: t =>
      rw [walkSymbols]
      rw [List.length_append, List.length_take, hd, List.length_cons]
      rw [ih (idx + 1) (t.drop (mbs - 1))
        (by simp only [List.length_drop]; simp at h; omega)]
      simp only [List.length_drop]
      omega

/-- `local_err` accumulation over the compared region
(`simulation.cpp:196-200`): count of positions `j < min(|u|, |u_hat|)` where
`u[j] ≠ u_hat[j]`. -/
def countErrs (u u_hat : List ℕ) : ℕ :=
  (List.zipWith (fun a b => if a ≠ b then 1 else 0) u u_hat).sum

theorem countErrs_le : ∀ u v : List ℕ, countErrs u v ≤ min u.length v.length := by
  intro u
  induction u with
  | nil => intro v; simp [countErrs]
  | cons a u ih =>
    intro v
    match v with
    | [] => simp [countErrs]
    | b :: v =>
      have := ih v
      show (if a ≠ b then 1 else 0) + countErrs u v ≤ min (u.length + 1) (v.length + 1)
      have hone : (if a ≠ b then 1 else 0) ≤ 1 := by split <;> omega
      omega

namespace Uncoded

/-- `Uncoded::encode`: identity. -/
def encode (u : List ℕ) : List ℕ := u

/-- `Uncoded::decode`: identity. -/
def decode (c_hat : List ℕ) : List ℕ := c_hat

/-- `Uncoded::rate` = 1. -/
def rate : ℚ := 1

end Uncoded

namespace ConvK7R12

theorem toSyms_length : ∀ l : List ℕ, (toSyms l).length = l.length / 2
  | [] => rfl
  | [_] => by simp [toSyms]
  | _ :: _ :: rest => by
    show (toSyms rest).length + 1 = (rest.length + 1 + 1) / 2
    rw [toSyms_length rest]
    omega

theorem forwardPass_tables_length :
    ∀ (rs : List ℕ) (pm : ℕ → ℕ), ((forwardPass pm rs).2).length = rs.length
  | [], _ => rfl
  | r :: rest, pm => by
    show ((forwardPass (stepSymbol pm r).pm rest).2).length + 1 = rest.length + 1
    rw [forwardPass_tables_length rest]

theorem tracebackAux_bits_length :
    ∀ (l : List VitStep) (st : ℕ), ((tracebackAux l st).1).length = l.length
  | [], _ => rfl
  | tb :: rest, st => by
    show ((tracebackAux rest _).1 ++ [tb.dec st]).length = rest.length + 1
    rw [List.length_append, tracebackAux_bits_length rest]
    rfl

/-- Length law of the Viterbi decoder: `n_sym - M` information bits when
`n_sym > M`, else none. -/
theorem decode_length (c_hat : List ℕ) :
    (decode c_hat).length =
      if M < c_hat.length / 2 then c_hat.length / 2 - M else 0 := by
  unfold decode
  by_cases h0 : c_hat.length / 2 = 0
  · rw [if_pos h0, h0]
    simp [M]
  · rw [if_neg h0]
    rw [List.length_take, tracebackAux_bits_length, List.length_reverse,
      forwardPass_tables_length, toSyms_length]
    split
    · omega
    · omega

end ConvK7R12

theorem ask2_demodulate_length (r : ℚ) : (Ask2Modem.demodulate r).length = 1 := by
  unfold Ask2Modem.demodulate
  split <;> rfl

theorem ask4_demodulate_length (mp : Ask4Modem.Mapping) (r : ℚ) :
    (Ask4Modem.demodulate mp r).length = 2 := by
  unfold Ask4Modem.demodulate
  cases mp <;> (split <;> first
    | rfl
    | (split <;> first
        | rfl
        | (split <;> rfl)))

/-- The compared length `min(|u|, |u_hat|)` of one worker frame
(`simulation.cpp:197`), for a given coder, modem and per-symbol channel. -/
def frameCompareLen (enc dec : List ℕ → List ℕ) (chan : ℕ → ℚ → ChannelOutput)
    (sigma : ℚ) (mod : List ℕ → ℚ) (demod : ℚ → List ℕ) (mbs : ℕ)
    (u : List ℕ) : ℕ :=
  min u.length (dec (walkSymbols chan sigma mod demod mbs 0 (enc u))).length

/-- Engine accounting invariant: divisibility of the bit counter, error
bound, stop implies at least one published frame, halted implies stop. -/
def EngAcct (frame_len : ℕ) (st : EngState) : Prop :=
  frame_len ∣ st.bits ∧ st.errs ≤ st.bits ∧
  (st.stop = true → frame_len ≤ st.bits) ∧
  (∀ w, st.phase w = .halted → st.stop = true)

theorem stepWorker_acct (P : StopParams) (frames : ℕ → ℕ → ℕ × ℕ)
    (frame_len : ℕ)
    (hfr : ∀ w k, (frames w k).1 = frame_len ∧ (frames w k).2 ≤ frame_len)
    (st : EngState) (w : ℕ) (h : EngAcct frame_len st) :
    EngAcct frame_len (stepWorker P frames st w) := by
  obtain ⟨h1, h2, h3, h4⟩ := h
  unfold stepWorker
  rcases hph : st.phase w with _ | _ | _ <;> simp only [hph]
  · -- idle
    split
    · next hstop =>
      refine ⟨h1, h2, h3, ?_⟩
      intro w' hw'
      exact hstop
    · next hstop =>
      refine ⟨h1, h2, h3, ?_⟩
      intro w' hw'
      show st.stop = true
      simp only [Function.update_apply] at hw'
      split at hw'
      · exact absurd hw' (by simp)
      · exact h4 w' hw'
  · -- inflight: publish one frame
    have hf := hfr w (st.count w)
    split
    · next hstop =>
      refine ⟨?_, ?_, ?_, ?_⟩
      · show frame_len ∣ st.bits + (frames w (st.count w)).1
        rw [hf.1]
        exact Dvd.dvd.add h1 dvd_rfl
      · show st.errs + (frames w (st.count w)).2 ≤ st.bits + (frames w (st.count w)).1
        have := hf.2
        omega
      · intro _
        show frame_len ≤ st.bits + (frames w (st.count w)).1
        rw [hf.1]
        omega
      · intro w' _
        rfl
    · next hstop =>
      refine ⟨?_, ?_, ?_, ?_⟩
      · show frame_len ∣ st.bits + (frames w (st.count w)).1
        rw [hf.1]
        exact Dvd.dvd.add h1 dvd_rfl
      · show st.errs + (frames w (st.count w)).2 ≤ st.bits + (frames w (st.count w)).1
        have := hf.2
        omega
      · intro hs
        show frame_len ≤ st.bits + (frames w (st.count w)).1
        have := h3 hs
        omega
      · intro w' hw'
        show st.stop = true
        simp only [Function.update_apply] at hw'
        split at hw'
        · exact absurd hw' (by simp)
        · exact h4 w' hw'
  · -- halted
    exact ⟨h1, h2, h3, h4⟩

theorem execSched_acct (P : StopParams) (frames : ℕ → ℕ → ℕ × ℕ)
    (frame_len : ℕ)
    (hfr : ∀ w k, (frames w k).1 = frame_len ∧ (frames w k).2 ≤ frame_len)
    (sched : List ℕ) : EngAcct frame_len (execSched P frames sched) := by
  unfold execSched
  have hgen : ∀ (l : List ℕ) (st : EngState), EngAcct frame_len st →
      EngAcct frame_len (l.foldl (stepWorker P frames) st) := by
    intro l
    induction l with
    | nil => intro st h; exact h
    | cons a l ih =>
      intro st h
      exact ih _ (stepWorker_acct P frames frame_len hfr st a h)
  refine hgen sched initEngState ⟨dvd_zero _, le_refl 0, ?_, ?_⟩
  · intro h
    exact absurd h (by simp [initEngState])
  · intro w h
    exact absurd h (by simp [initEngState])

theorem uncoded_uhat_length (chan : ℕ → ℚ → ChannelOutput) (sigma : ℚ)
    (mod : List ℕ → ℚ) (demod : ℚ → List ℕ) (mbs : ℕ)
    (hd : ∀ r, (demod r).length = mbs) (hm : 0 < mbs) (u : List ℕ) :
    (Uncoded.decode (walkSymbols chan sigma mod demod mbs 0 (Uncoded.encode u))).length
      = u.length := by
  unfold Uncoded.decode Uncoded.encode
  exact walkSymbols_length chan sigma mod demod mbs hd hm u.length 0 u (le_refl _)

theorem conv_uhat_length (chan : ℕ → ℚ → ChannelOutput) (sigma : ℚ)
    (mod : List ℕ → ℚ) (demod : ℚ → List ℕ) (mbs : ℕ)
    (hd : ∀ r, (demod r).length = mbs) (hm : 0 < mbs) (u : List ℕ)
    (hu : 0 < u.length) :
    (ConvK7R12.decode (walkSymbols chan sigma mod demod mbs 0
      (ConvK7R12.encode u))).length = u.length := by
  have hw : (walkSymbols chan sigma mod demod mbs 0 (ConvK7R12.encode u)).length
      = (ConvK7R12.encode u).length :=
    walkSymbols_length chan sigma mod demod mbs hd hm _ 0 _ (le_refl _)
  rw [ConvK7R12.decode_length, hw, ConvK7R12.encode_length]
  simp only [ConvK7R12.M]
  rw [if_pos (by omega)]
  omega

/-- Claim C10: for every completed frame, with either coder and either modem,
the compared length `min(|u|, |u_hat|)` equals the frame length; the error
count of a frame is at most that length; hence in the engine each publish
adds exactly `frame_len` bits and at most `frame_len` errors, so `total_bits`
is a positive multiple of `frame_len` in every returned result (once a worker
has halted, some frame was published) and `total_errs ≤ total_bits`
throughout. -/
theorem C10_frame_accounting (frame_len : ℕ) (hfl : 0 < frame_len) :
    (∀ (chan : ℕ → ℚ → ChannelOutput) (sigma : ℚ) (u : List ℕ),
      u.length = frame_len →
      (frameCompareLen Uncoded.encode Uncoded.decode chan sigma Ask2Modem.modulate
        Ask2Modem.demodulate 1 u = frame_len ∧
       (∀ mp, frameCompareLen Uncoded.encode Uncoded.decode chan sigma
         (Ask4Modem.modulate mp) (Ask4Modem.demodulate mp) 2 u = frame_len) ∧
       frameCompareLen ConvK7R12.encode ConvK7R12.decode chan sigma
         Ask2Modem.modulate Ask2Modem.demodulate 1 u = frame_len ∧
       (∀ mp, frameCompareLen ConvK7R12.encode ConvK7R12.decode chan sigma
         (Ask4Modem.modulate mp) (Ask4Modem.demodulate mp) 2 u = frame_len))) ∧
    (∀ u v : List ℕ, countErrs u v ≤ min u.length v.length) ∧
    (∀ (P : StopParams) (frames : ℕ → ℕ → ℕ × ℕ),
      (∀ w k, (frames w k).1 = frame_len ∧ (frames w k).2 ≤ frame_len) →
      ∀ sched : List ℕ,
        frame_len ∣ (engineResult P frames sched).bits ∧
        (engineResult P frames sched).errs ≤ (engineResult P frames sched).bits ∧
        ((execSched P frames sched).phase 0 = .halted →
          0 < (engineResult P frames sched).bits)) := by
  refine ⟨?_, countErrs_le, ?_⟩
  · intro chan sigma u hu
    have hupos : 0 < u.length := hu ▸ hfl
    refine ⟨?_, fun mp => ?_, ?_, fun mp => ?_⟩
    · unfold frameCompareLen
      rw [uncoded_uhat_length chan sigma _ _ 1 ask2_demodulate_length one_pos u,
        min_self, hu]
    · unfold frameCompareLen
      rw [uncoded_uhat_length chan sigma _ _ 2 (ask4_demodulate_length mp)
        (by norm_num) u, min_self, hu]
    · unfold frameCompareLen
      rw [conv_uhat_length chan sigma _ _ 1 ask2_demodulate_length one_pos u hupos,
        min_self, hu]
    · unfold frameCompareLen
      rw [conv_uhat_length chan sigma _ _ 2 (ask4_demodulate_length mp)
        (by norm_num) u hupos, min_self, hu]
  · intro P frames hfr sched
    obtain ⟨hdvd, hle, hstop, hhalt⟩ := execSched_acct P frames frame_len hfr sched
    refine ⟨?_, ?_, ?_⟩
    · rw [engineResult, aggregateResult_bits]
      exact hdvd
    · rw [engineResult, aggregateResult_bits]
      exact hle
    · intro hph
      rw [engineResult, aggregateResult_bits]
      have := hstop (hhalt 0 hph)
      omega

/-- Concrete instance of C10: frame length 1, Uncoded with 2-ASK over a
noiseless unit-gain channel. -/
theorem C10_witness :
    frameCompareLen Uncoded.encode Uncoded.decode (fun _ s => ⟨s, 1⟩) 0
      Ask2Modem.modulate Ask2Modem.demodulate 1 [0] = 1 :=
  ((C10_frame_accounting 1 (by norm_num)).1 (fun _ s => ⟨s, 1⟩) 0 [0] (by simp)).1
